import Mathlib

/-!
Verification of the suibase-daemon core state layer.

Shallow embedding of three Rust source files:
* `basic_types/managed_vec.rs` — `ManagedVec<T>`, a growable sequence of
  optional slots with slot recycling, indexed by `u8` (`ManagedVecUSize`).
* `shared_types/uuid.rs` — `UuidST`, a (method_uuid, data_uuid) version
  stamp with clock-regression handling and Base32Hex text encoding.
* `api/def_methods.rs` — the `getStatus` conditional-read handler contract.

Machine integers are modelled as `Nat` with explicit range checks where the
Rust code can overflow or panic; a Rust panic is modelled as `Option.none`
in the result of the operation that panics.
-/

namespace Suibase

/-- The `ManagedElement` trait of `managed_vec.rs`: stored elements expose a
read/write capability on their cached index field. -/
class ManagedElement (T : Type) where
  idx : T → Option Nat
  set_idx : T → Option Nat → T

/-- The (implicit) contract of the `ManagedElement` trait: reading the index
field back after writing it yields the written value.  The registry is the
sole writer of this field (spec §6). -/
class LawfulManagedElement (T : Type) [ManagedElement T] : Prop where
  idx_set_idx : ∀ (x : T) (i : Option Nat),
    ManagedElement.idx (ManagedElement.set_idx x i) = i

export ManagedElement (idx set_idx)

/-- `ManagedVec<T>`: `data: Vec<Option<T>>` and `some_len: ManagedVecUSize`
(`u8`, modelled as `Nat`; every mutation that can overflow the `u8` carries
an explicit check). -/
structure ManagedVec (T : Type) where
  data : List (Option T)
  some_len : Nat
deriving DecidableEq, Repr

namespace ManagedVec

/-- `ManagedVec::new()`. -/
def new (T : Type) : ManagedVec T := ⟨[], 0⟩

end ManagedVec

/-- Index of the lowest-indexed `None` cell, as found by `push`'s
`for (index, cell) in self.data.iter_mut().enumerate()` scan. -/
def firstFree {T : Type} : List (Option T) → Option Nat
  | [] => none
  | none :: _ => some 0
  | some _ :: rest => (firstFree rest).map (· + 1)

/-- Number of occupied (`Some`) cells of the backing sequence. -/
def countSome {T : Type} (l : List (Option T)) : Nat :=
  l.countP Option.isSome

/-- `while let Some(None) = self.data.last() { self.data.pop(); }` —
drop the trailing run of `None` cells. -/
def trimTail {T : Type} (l : List (Option T)) : List (Option T) :=
  (l.reverse.dropWhile Option.isNone).reverse

/-- The backing sequence has no empty slot at its tail (spec §3 invariant
(a)). -/
def noTrailingNone {T : Type} (l : List (Option T)) : Bool :=
  l.getLast?.all Option.isSome

/-- Every occupied cell's element self-reports exactly its slot index,
counting slots from `k` (spec §3 invariant (b)); `Bool`-valued so concrete
states can be checked by evaluation. -/
def idxOk {T : Type} [ManagedElement T] : Nat → List (Option T) → Bool
  | _, [] => true
  | k, none :: rest => idxOk (k + 1) rest
  | k, some x :: rest => decide (idx x = some k) && idxOk (k + 1) rest

namespace ManagedVec

variable {T : Type} [ManagedElement T]

/-- `ManagedVec::push`.  The Rust code first executes
`self.some_len += 1` (a `u8` add that overflows — panics — when
`some_len = 255`), then scans for the lowest free cell, converting the
chosen `usize` index with `index.try_into().unwrap()` (panics when the
index exceeds 255).  `none` models a panic; on success the pair holds the
new state and the Rust return value `Option<ManagedVecUSize>`. -/
def push (v : ManagedVec T) (x : T) : Option (ManagedVec T × Option Nat) :=
  if v.some_len + 1 ≤ 255 then
    match firstFree v.data with
    | some i =>
      if i ≤ 255 then
        some (⟨v.data.set i (some (set_idx x (some i))), v.some_len + 1⟩, some i)
      else none
    | none =>
      if v.data.length ≤ 255 then
        some (⟨v.data ++ [some (set_idx x (some v.data.length))], v.some_len + 1⟩,
          some v.data.length)
      else none
  else none

/-- `ManagedVec::get`: `self.data.get(usize_index).and_then(|v| v.as_ref())`.
Total — the Rust code cannot panic here. -/
def get (v : ManagedVec T) (i : Nat) : Option T :=
  v.data[i]?.bind id

/-- `ManagedVec::get_mut` reads the same cell as `get` (the mutable borrow
itself does not alter the registry). -/
def get_mut (v : ManagedVec T) (i : Nat) : Option T :=
  v.data[i]?.bind id

/-- `ManagedVec::remove`.  `self.data.get(usize_index)?` returns `None`
early when `index` is out of range (state untouched); otherwise the cell is
`take`n, trailing `None` cells are popped, and if a value was removed
`self.some_len -= 1` runs (a `u8` subtraction that underflows — panics —
when `some_len = 0`) and the value's index field is cleared.  The outer
`none` models that panic; the inner option is the Rust return value. -/
def remove (v : ManagedVec T) (i : Nat) : Option (ManagedVec T × Option T) :=
  match v.data[i]? with
  | none => some (v, none)
  | some c =>
    let data2 := trimTail (v.data.set i none)
    match c with
    | some x =>
      if v.some_len = 0 then none
      else some (⟨data2, v.some_len - 1⟩, some (set_idx x none))
    | none => some (⟨data2, v.some_len⟩, none)

/-- `ManagedVec::len`. -/
def len (v : ManagedVec T) : Nat := v.some_len

/-- `ManagedVec::is_empty`. -/
def is_empty (v : ManagedVec T) : Bool := v.some_len == 0

/-- `ManagedVec::iter`: the live `(index, element)` pairs in ascending
index order. -/
def iterList (v : ManagedVec T) : List (Nat × T) :=
  v.data.enum.filterMap (fun p => p.2.map (fun x => (p.1, x)))

/-- States reachable from `new` by the `push`/`remove` API (panicking
transitions produce no state, so they generate nothing here). -/
inductive Reach : ManagedVec T → Prop where
  | new : Reach (new T)
  | push {v : ManagedVec T} {x : T} {v' : ManagedVec T} {r : Option Nat} :
      Reach v → push v x = some (v', r) → Reach v'
  | remove {v : ManagedVec T} {i : Nat} {v' : ManagedVec T} {r : Option T} :
      Reach v → remove v i = some (v', r) → Reach v'

/-- The `ManagedVec` state invariant (spec §3): `some_len` counts the
occupied cells and fits the `u8`, no trailing empty slot, and every live
element self-reports its slot index. -/
def Inv (v : ManagedVec T) : Prop :=
  v.some_len = countSome v.data ∧ v.some_len ≤ 255 ∧
    noTrailingNone v.data = true ∧ idxOk 0 v.data = true

instance (v : ManagedVec T) : Decidable (Inv v) := by
  unfold Inv; infer_instance

end ManagedVec

/-- `UuidST` of `shared_types/uuid.rs`: `method_uuid` (the random instance
id, UUID v4) and `data_uuid` (the time-ordered sequence id, UUID v7).  Each
is a 128-bit value, modelled as a `Nat`; the `uuid` crate's `Ord` compares
the underlying 128-bit value, which agrees with `Nat` order. -/
structure UuidST where
  method_uuid : Nat
  data_uuid : Nat
deriving DecidableEq, Repr

namespace UuidST

/-- `UuidST::get`. -/
def get (s : UuidST) : Nat × Nat := (s.method_uuid, s.data_uuid)

/-- `UuidST::set`. -/
def set (_s other : UuidST) : UuidST :=
  { method_uuid := other.method_uuid, data_uuid := other.data_uuid }

/-- `UuidST::increment`.  The two random/clock sources are inputs of the
embedding: `new_data` is the freshly generated `uuid7::new_v7()` and
`fresh_method` the `Uuid::new_v4()` that the regression branch would mint.
`if new_data_uuid <= self.data_uuid { self.method_uuid = Uuid::new_v4(); }
self.data_uuid = new_data_uuid;` -/
def increment (s : UuidST) (new_data fresh_method : Nat) : UuidST :=
  if new_data ≤ s.data_uuid then
    { method_uuid := fresh_method, data_uuid := new_data }
  else
    { method_uuid := s.method_uuid, data_uuid := new_data }

end UuidST

/-- The Base32Hex (RFC 4648) digit alphabet `0..9A..V`, as characters:
digit `d` maps to ASCII `48 + d` for `d < 10` and `55 + d` otherwise. -/
def b32Char (d : Nat) : Char :=
  if d < 10 then Char.ofNat (48 + d) else Char.ofNat (55 + d)

/-- The `k` base-32 digits of `n`, most significant first. -/
def digitsBE : Nat → Nat → List Nat
  | 0, _ => []
  | k + 1, n => n / 32 ^ k :: digitsBE k (n % 32 ^ k)

/-- `UuidST::short_uuid_string`:
`data_encoding::BASE32HEX_NOPAD.encode(uuid.as_bytes())`.  The 16 bytes
(128 bits, big-endian — `uuid` stores its value big-endian) are split into
26 five-bit groups left to right, the last group padded with two zero bits
on the right; appending two zero bits is multiplying the value by 4. -/
def short_uuid_string (u : Nat) : List Char :=
  (digitsBE 26 (u * 4)).map b32Char

/-- A `getStatus` response of the conditional-read protocol: the current
stamp plus either the full payload or `none` for the abbreviated
"unchanged" response. -/
structure StatusResult (P : Type) where
  stamp : UuidST
  payload : Option P
deriving DecidableEq, Repr

/-- Modelled from the spec: the repository's `GeneralApi::get_status`
implementation is not among the given sources (only the trait declaration
in `api/def_methods.rs` is), so the handler's dispatch on the caller's
`method_uuid`/`data_uuid` follows spec §4.3: absent or mismatched instance
id → full payload + current stamp; matching instance id and equal sequence
id → abbreviated payload + unchanged stamp; matching instance id, different
sequence id → full payload + current stamp. -/
def getStatusHandler {P : Type} (current : UuidST) (full : P)
    (caller_method caller_data : Option Nat) : StatusResult P :=
  match caller_method, caller_data with
  | some m, some d =>
    if m = current.method_uuid then
      if d = current.data_uuid then ⟨current, none⟩
      else ⟨current, some full⟩
    else ⟨current, some full⟩
  | _, _ => ⟨current, some full⟩

/-- The element type of `managed_vec.rs`'s own test: an index field and a
payload byte. -/
structure TS where
  idx : Option Nat
  value : Nat
deriving DecidableEq, Repr

instance : ManagedElement TS where
  idx t := t.idx
  set_idx t i := { t with idx := i }

instance : LawfulManagedElement TS where
  idx_set_idx _ _ := rfl

namespace ManagedVec

/-- The state after `n` pushes from `new` (each push appends, no cell is
ever free): cell `i` holds a `TS` with index `i`. -/
def fullState (n : Nat) : ManagedVec TS :=
  ⟨(List.range n).map (fun i => some ⟨some i, i⟩), n⟩

end ManagedVec

/-- Test fixtures following the scenario of spec §8: elements A–D. -/
def tsA : TS := ⟨none, 1⟩

def tsB : TS := ⟨none, 2⟩

def tsC : TS := ⟨none, 3⟩

def tsD : TS := ⟨none, 4⟩

/-- State after `push A` from new. -/
def vA : ManagedVec TS := ⟨[some ⟨some 0, 1⟩], 1⟩

/-- State after `push A; push B`. -/
def vAB : ManagedVec TS := ⟨[some ⟨some 0, 1⟩, some ⟨some 1, 2⟩], 2⟩

/-- State after `push A; push B; push C` (indices 0, 1, 2). -/
def vABC : ManagedVec TS :=
  ⟨[some ⟨some 0, 1⟩, some ⟨some 1, 2⟩, some ⟨some 2, 3⟩], 3⟩

/-- State after `push A; push B; push C; remove 1` (slot 1 free). -/
def vAC : ManagedVec TS := ⟨[some ⟨some 0, 1⟩, none, some ⟨some 2, 3⟩], 2⟩

/-- State after `push A; push B; push C; remove 1; push D` (D recycled
slot 1). -/
def vADC : ManagedVec TS :=
  ⟨[some ⟨some 0, 1⟩, some ⟨some 1, 4⟩, some ⟨some 2, 3⟩], 3⟩

/-! ## Helper lemmas on the backing-sequence operations -/

section Helpers

variable {T : Type}

lemma firstFree_some : ∀ (l : List (Option T)) (i : Nat), firstFree l = some i →
    l[i]? = some none ∧ ∀ j < i, ∃ y, l[j]? = some (some y) := by
  intro l
  induction l with
  | nil => intro i h; simp [firstFree] at h
  | cons c rest ih =>
    intro i h
    match c with
    | none =>
      simp only [firstFree, Option.some.injEq] at h
      subst h
      exact ⟨by simp, by omega⟩
    | some y =>
      rw [show firstFree (some y :: rest) = (firstFree rest).map (· + 1) from rfl,
        Option.map_eq_some'] at h
      obtain ⟨i0, h0, rfl⟩ := h
      obtain ⟨hcell, hmin⟩ := ih i0 h0
      refine ⟨by simpa using hcell, ?_⟩
      intro j hj
      match j with
      | 0 => exact ⟨y, by simp⟩
      | j + 1 =>
        obtain ⟨z, hz⟩ := hmin j (by omega)
        exact ⟨z, by simpa using hz⟩

lemma firstFree_none : ∀ (l : List (Option T)), firstFree l = none →
    ∀ (j : Nat) (c : Option T), l[j]? = some c → ∃ y, c = some y := by
  intro l
  induction l with
  | nil => intro _ j c h; exact absurd h (by simp)
  | cons c0 rest ih =>
    intro h j c hc
    match c0 with
    | none => simp [firstFree] at h
    | some y =>
      rw [show firstFree (some y :: rest) = (firstFree rest).map (· + 1) from rfl,
        Option.map_eq_none'] at h
      match j with
      | 0 => exact ⟨y, by simpa using hc.symm⟩
      | j + 1 => exact ih h j c (by simpa using hc)

lemma countSome_set_none : ∀ (l : List (Option T)) (i : Nat) (x : T),
    l[i]? = some (some x) → countSome l = countSome (l.set i none) + 1 := by
  intro l
  induction l with
  | nil => intro i x h; exact absurd h (by simp)
  | cons c rest ih =>
    intro i x h
    match i with
    | 0 =>
      have hc : c = some x := by simpa using h
      subst hc
      rw [List.set_cons_zero]
      simp only [countSome, List.countP_cons]
      simp
    | i + 1 =>
      have h' : rest[i]? = some (some x) := by simpa using h
      rw [List.set_cons_succ]
      simp only [countSome, List.countP_cons]
      have hi := ih i x h'
      simp only [countSome] at hi
      omega

lemma countSome_set_some : ∀ (l : List (Option T)) (i : Nat) (y : T),
    l[i]? = some none → countSome (l.set i (some y)) = countSome l + 1 := by
  intro l
  induction l with
  | nil => intro i y h; exact absurd h (by simp)
  | cons c rest ih =>
    intro i y h
    match i with
    | 0 =>
      have hc : c = none := by simpa using h
      subst hc
      rw [List.set_cons_zero]
      simp only [countSome, List.countP_cons]
      simp
    | i + 1 =>
      have h' : rest[i]? = some none := by simpa using h
      rw [List.set_cons_succ]
      simp only [countSome, List.countP_cons]
      have hi := ih i y h'
      simp only [countSome] at hi
      omega

lemma countSome_append_some (l : List (Option T)) (y : T) :
    countSome (l ++ [some y]) = countSome l + 1 := by
  simp [countSome, List.countP_append]

lemma countSome_pos {l : List (Option T)} {i : Nat} {x : T}
    (h : l[i]? = some (some x)) : 1 ≤ countSome l := by
  rw [countSome_set_none l i x h]; omega

lemma head?_dropWhile_not {α : Type} (p : α → Bool) :
    ∀ (l : List α) (a : α), (l.dropWhile p).head? = some a → p a = false := by
  intro l
  induction l with
  | nil => intro a h; simp [List.dropWhile] at h
  | cons c rest ih =>
    intro a h
    by_cases hp : p c
    · rw [List.dropWhile_cons_of_pos hp] at h
      exact ih a h
    · rw [List.dropWhile_cons_of_neg hp] at h
      simp only [List.head?_cons, Option.some.injEq] at h
      subst h
      simpa using hp

lemma countSome_dropWhile_isNone : ∀ (l : List (Option T)),
    countSome (l.dropWhile Option.isNone) = countSome l := by
  intro l
  induction l with
  | nil => rfl
  | cons c rest ih =>
    match c with
    | none =>
      rw [List.dropWhile_cons_of_pos (by simp), ih]
      simp only [countSome, List.countP_cons]
      simp
    | some y =>
      rw [List.dropWhile_cons_of_neg (by simp)]

lemma countSome_trimTail (l : List (Option T)) : countSome (trimTail l) = countSome l := by
  calc countSome (trimTail l)
      = countSome (l.reverse.dropWhile Option.isNone) := by
        simp only [trimTail, countSome]
        exact List.countP_reverse Option.isSome _
    _ = countSome l.reverse := countSome_dropWhile_isNone l.reverse
    _ = countSome l := by
        simp only [countSome]
        exact List.countP_reverse Option.isSome l

lemma trimTail_getElem? (l : List (Option T)) (j : Nat) (c : Option T)
    (h : (trimTail l)[j]? = some c) : l[j]? = some c := by
  have hsuf : (trimTail l).reverse <:+ l.reverse := by
    rw [trimTail, List.reverse_reverse]
    exact List.dropWhile_suffix Option.isNone
  obtain ⟨t, ht⟩ := List.reverse_suffix.mp hsuf
  obtain ⟨hlt, hval⟩ := List.getElem?_eq_some.mp h
  rw [← ht, List.getElem?_append_left hlt, h]

lemma trimTail_noTrailing (l : List (Option T)) : noTrailingNone (trimTail l) = true := by
  rw [noTrailingNone, trimTail, List.getLast?_reverse]
  cases hh : (l.reverse.dropWhile Option.isNone).head? with
  | none => rfl
  | some a =>
    have := head?_dropWhile_not Option.isNone l.reverse a hh
    match a with
    | none => simp at this
    | some y => rfl

lemma trimTail_eq_self {l : List (Option T)} (h : noTrailingNone l = true) :
    trimTail l = l := by
  cases hrev : l.reverse with
  | nil =>
    have : l = [] := by simpa using congrArg List.reverse hrev
    subst this; rfl
  | cons a t =>
    have hlast : l.getLast? = some a := by
      rw [← List.reverse_reverse l, List.getLast?_reverse, hrev, List.head?_cons]
    rw [noTrailingNone, hlast] at h
    have ha : Option.isNone a = false := by
      match a with
      | none => simp at h
      | some y => rfl
    rw [trimTail, hrev, List.dropWhile_cons_of_neg (by simp [ha]), ← hrev,
      List.reverse_reverse]

lemma noTrailingNone_set_some (l : List (Option T)) (i : Nat) (y : T)
    (h : noTrailingNone l = true) : noTrailingNone (l.set i (some y)) = true := by
  match l with
  | [] => simp [noTrailingNone]
  | c :: rest =>
    have hlen : 0 < (c :: rest).length := by simp
    by_cases hi : i = (c :: rest).length - 1
    · subst hi
      rw [noTrailingNone, List.getLast?_eq_getElem?, List.length_set,
        List.getElem?_set_self (by omega)]
      rfl
    · rw [noTrailingNone, List.getLast?_eq_getElem?, List.length_set,
        List.getElem?_set_ne hi, ← List.getLast?_eq_getElem?]
      exact h

lemma noTrailingNone_append_some (l : List (Option T)) (y : T) :
    noTrailingNone (l ++ [some y]) = true := by
  simp [noTrailingNone, List.getLast?_concat]

lemma set_getElem?_same {α : Type} {l : List α} {i : Nat} {a : α}
    (h : l[i]? = some a) : l.set i a = l := by
  apply List.ext_getElem?
  intro j
  by_cases hij : i = j
  · subst hij
    rw [List.getElem?_set_self (List.getElem?_eq_some.mp h).1, h]
  · rw [List.getElem?_set_ne hij]

end Helpers

/-! ## Index-correctness lemmas -/

section IdxLemmas

variable {T : Type} [ManagedElement T]

/-- Propositional form of `idxOk`: every occupied cell's element
self-reports its slot index (counting from `k`). -/
def idxP (k : Nat) (l : List (Option T)) : Prop :=
  ∀ (j : Nat) (x : T), l[j]? = some (some x) → idx x = some (k + j)

lemma idxOk_iff : ∀ (l : List (Option T)) (k : Nat), idxOk k l = true ↔ idxP k l := by
  intro l
  induction l with
  | nil =>
    intro k
    constructor
    · intro _ j x h; exact absurd h (by simp)
    · intro _; rfl
  | cons c rest ih =>
    intro k
    match c with
    | none =>
      rw [show idxOk k (none :: rest) = idxOk (k + 1) rest from rfl, ih (k + 1)]
      constructor
      · intro h j x hj
        match j with
        | 0 => exact absurd hj (by simp)
        | j + 1 =>
          have := h j x (by simpa using hj)
          rw [this]; congr 1; omega
      · intro h j x hj
        have := h (j + 1) x (by simpa using hj)
        rw [this]; congr 1; omega
    | some y =>
      rw [show idxOk k (some y :: rest) = (decide (idx y = some k) && idxOk (k + 1) rest)
        from rfl, Bool.and_eq_true, decide_eq_true_iff, ih (k + 1)]
      constructor
      · intro h j x hj
        match j with
        | 0 =>
          have hx : x = y := by simpa using hj.symm
          subst hx
          simpa using h.1
        | j + 1 =>
          have := h.2 j x (by simpa using hj)
          rw [this]; congr 1; omega
      · intro h
        refine ⟨by simpa using h 0 y (by simp), ?_⟩
        intro j x hj
        have := h (j + 1) x (by simpa using hj)
        rw [this]; congr 1; omega

lemma idxP_set_some {l : List (Option T)} {i : Nat} {y : T}
    (h : idxP 0 l) (hy : idx y = some i) : idxP 0 (l.set i (some y)) := by
  intro j x hj
  by_cases hij : i = j
  · subst hij
    by_cases hlen : i < l.length
    · rw [List.getElem?_set_self hlen] at hj
      have hx : x = y := by simpa using hj.symm
      subst hx
      simpa using hy
    · rw [List.set_eq_of_length_le (by omega)] at hj
      exact h i x hj
  · rw [List.getElem?_set_ne hij] at hj
    exact h j x hj

lemma idxP_set_none {l : List (Option T)} {i : Nat}
    (h : idxP 0 l) : idxP 0 (l.set i none) := by
  intro j x hj
  by_cases hij : i = j
  · subst hij
    by_cases hlen : i < l.length
    · rw [List.getElem?_set_self hlen] at hj
      exact absurd hj (by simp)
    · rw [List.set_eq_of_length_le (by omega)] at hj
      exact h i x hj
  · rw [List.getElem?_set_ne hij] at hj
    exact h j x hj

lemma idxP_append {l : List (Option T)} {y : T}
    (h : idxP 0 l) (hy : idx y = some l.length) : idxP 0 (l ++ [some y]) := by
  intro j x hj
  by_cases hlt : j < l.length
  · rw [List.getElem?_append_left hlt] at hj
    exact h j x hj
  · have hle : j < l.length + 1 := by
      have := (List.getElem?_eq_some.mp hj).1
      simpa using this
    have hjeq : j = l.length := by omega
    subst hjeq
    rw [List.getElem?_concat_length] at hj
    have hx : x = y := by simpa using hj.symm
    subst hx
    simpa using hy

lemma idxP_trimTail {l : List (Option T)} (h : idxP 0 l) : idxP 0 (trimTail l) :=
  fun j x hj => h j x (trimTail_getElem? l j (some x) hj)

end IdxLemmas

/-! ## Invariant preservation -/

namespace ManagedVec

variable {T : Type} [ManagedElement T]

lemma inv_new : Inv (new T) := by
  refine ⟨rfl, ?_, rfl, rfl⟩
  show (0 : Nat) ≤ 255
  omega

lemma push_inv [LawfulManagedElement T] {v : ManagedVec T} {x : T}
    {v' : ManagedVec T} {r : Option Nat}
    (hInv : Inv v) (h : push v x = some (v', r)) : Inv v' := by
  obtain ⟨hcount, hle, htail, hidx⟩ := hInv
  rw [push] at h
  split at h
  case isTrue h255 =>
    split at h
    case h_1 i hff =>
      split at h
      case isTrue hi =>
        simp only [Option.some.injEq, Prod.mk.injEq] at h
        obtain ⟨hv', _⟩ := h
        subst hv'
        obtain ⟨hcell, _⟩ := firstFree_some v.data i hff
        refine ⟨?_, h255, ?_, ?_⟩
        · rw [show countSome ((⟨v.data.set i (some (set_idx x (some i))),
            v.some_len + 1⟩ : ManagedVec T).data) = countSome (v.data.set i
            (some (set_idx x (some i)))) from rfl,
            countSome_set_some v.data i _ hcell, hcount]
        · exact noTrailingNone_set_some v.data i _ htail
        · rw [idxOk_iff]
          exact idxP_set_some ((idxOk_iff v.data 0).mp hidx)
            (LawfulManagedElement.idx_set_idx x (some i))
      case isFalse => exact absurd h (by simp)
    case h_2 hff =>
      split at h
      case isTrue hi =>
        simp only [Option.some.injEq, Prod.mk.injEq] at h
        obtain ⟨hv', _⟩ := h
        subst hv'
        refine ⟨?_, h255, ?_, ?_⟩
        · rw [show countSome ((⟨v.data ++ [some (set_idx x (some v.data.length))],
            v.some_len + 1⟩ : ManagedVec T).data) = countSome (v.data ++
            [some (set_idx x (some v.data.length))]) from rfl,
            countSome_append_some, hcount]
        · exact noTrailingNone_append_some v.data _
        · rw [idxOk_iff]
          exact idxP_append ((idxOk_iff v.data 0).mp hidx)
            (LawfulManagedElement.idx_set_idx x (some v.data.length))
      case isFalse => exact absurd h (by simp)
  case isFalse => exact absurd h (by simp)

lemma remove_inv [LawfulManagedElement T] {v : ManagedVec T} {i : Nat}
    {v' : ManagedVec T} {r : Option T}
    (hInv : Inv v) (h : remove v i = some (v', r)) : Inv v' := by
  obtain ⟨hcount, hle, htail, hidx⟩ := hInv
  rw [remove] at h
  split at h
  case h_1 hcell =>
    simp only [Option.some.injEq, Prod.mk.injEq] at h
    obtain ⟨hv', _⟩ := h
    subst hv'
    exact ⟨hcount, hle, htail, hidx⟩
  case h_2 c hcell =>
    match c with
    | some x =>
      simp only at h
      split at h
      case isTrue => exact absurd h (by simp)
      case isFalse h0 =>
        simp only [Option.some.injEq, Prod.mk.injEq] at h
        obtain ⟨hv', _⟩ := h
        subst hv'
        have hdec := countSome_set_none v.data i x hcell
        refine ⟨?_, ?_, trimTail_noTrailing _, ?_⟩
        · show v.some_len - 1 = countSome (trimTail (v.data.set i none))
          rw [countSome_trimTail]
          omega
        · show v.some_len - 1 ≤ 255
          omega
        · show idxOk 0 (trimTail (v.data.set i none)) = true
          rw [idxOk_iff]
          exact idxP_trimTail (idxP_set_none ((idxOk_iff v.data 0).mp hidx))
    | none =>
      simp only [Option.some.injEq, Prod.mk.injEq] at h
      obtain ⟨hv', _⟩ := h
      subst hv'
      have hsame : v.data.set i none = v.data := set_getElem?_same hcell
      have : trimTail (v.data.set i none) = v.data := by
        rw [hsame]; exact trimTail_eq_self htail
      rw [show (⟨trimTail (v.data.set i none), v.some_len⟩ : ManagedVec T)
        = ⟨v.data, v.some_len⟩ from by rw [this]]
      exact ⟨hcount, hle, htail, hidx⟩

lemma inv_of_reach [LawfulManagedElement T] {v : ManagedVec T}
    (h : Reach v) : Inv v := by
  induction h with
  | new => exact inv_new
  | push _ hp ih => exact push_inv ih hp
  | remove _ hr ih => exact remove_inv ih hr

end ManagedVec

/-! ## Reachability of the concrete fixtures -/

lemma firstFree_of_all_some {T : Type} :
    ∀ (l : List (Option T)), (∀ c ∈ l, c.isSome) → firstFree l = none := by
  intro l
  induction l with
  | nil => intro _; rfl
  | cons c rest ih =>
    intro h
    match c with
    | none => exact absurd (h none (by simp)) (by simp)
    | some y =>
      rw [show firstFree (some y :: rest) = (firstFree rest).map (· + 1) from rfl,
        ih (fun c hc => h c (by simp [hc]))]
      rfl

lemma push_fullState (n : Nat) (h : n + 1 ≤ 255) :
    ManagedVec.push (ManagedVec.fullState n) (⟨none, n⟩ : TS)
      = some (ManagedVec.fullState (n + 1), some n) := by
  have hff : firstFree (ManagedVec.fullState n).data = none := by
    apply firstFree_of_all_some
    intro c hc
    simp only [ManagedVec.fullState, List.mem_map, List.mem_range] at hc
    obtain ⟨i, _, rfl⟩ := hc
    rfl
  rw [ManagedVec.push]
  simp only [hff]
  rw [if_pos]
  · rw [if_pos]
    · have hlen : (ManagedVec.fullState n).data.length = n := by
        simp [ManagedVec.fullState]
      rw [hlen]
      have hfs : ManagedVec.fullState (n + 1)
          = ⟨(List.range n).map (fun i => some (⟨some i, i⟩ : TS)) ++
            [some ⟨some n, n⟩], n + 1⟩ := by
        simp [ManagedVec.fullState, List.range_succ]
      rw [hfs]
      rfl
    · show (ManagedVec.fullState n).data.length ≤ 255
      simp only [ManagedVec.fullState, List.length_map, List.length_range]
      omega
  · show (ManagedVec.fullState n).some_len + 1 ≤ 255
    exact h

lemma reach_fullState : ∀ n, n ≤ 255 → ManagedVec.Reach (ManagedVec.fullState n) := by
  intro n
  induction n with
  | zero => intro _; exact ManagedVec.Reach.new
  | succ k ih =>
    intro h
    exact ManagedVec.Reach.push (ih (by omega)) (push_fullState k (by omega))

lemma reach_vA : ManagedVec.Reach vA :=
  ManagedVec.Reach.push ManagedVec.Reach.new
    (show ManagedVec.push (ManagedVec.new TS) tsA = some (vA, some 0) by decide)

lemma reach_vAB : ManagedVec.Reach vAB :=
  ManagedVec.Reach.push reach_vA
    (show ManagedVec.push vA tsB = some (vAB, some 1) by decide)

lemma reach_vABC : ManagedVec.Reach vABC :=
  ManagedVec.Reach.push reach_vAB
    (show ManagedVec.push vAB tsC = some (vABC, some 2) by decide)

lemma reach_vAC : ManagedVec.Reach vAC :=
  ManagedVec.Reach.remove reach_vABC
    (show ManagedVec.remove vABC 1 = some (vAC, some ⟨none, 2⟩) by decide)

/-! ## Order preservation of the Base32Hex encoding -/

lemma lex_cons_char {a b : Char} {l₁ l₂ : List Char} :
    List.Lex (· < ·) (a :: l₁) (b :: l₂) ↔
      a < b ∨ (a = b ∧ List.Lex (· < ·) l₁ l₂) := by
  constructor
  · intro h
    cases h with
    | cons h => exact Or.inr ⟨rfl, h⟩
    | rel h => exact Or.inl h
  · rintro (h | ⟨rfl, h⟩)
    · exact List.Lex.rel h
    · exact List.Lex.cons h

lemma b32Char_lt_iff : ∀ d₁ < 32, ∀ d₂ < 32, (b32Char d₁ < b32Char d₂ ↔ d₁ < d₂) := by
  decide

lemma b32Char_eq_iff : ∀ d₁ < 32, ∀ d₂ < 32, (b32Char d₁ = b32Char d₂ ↔ d₁ = d₂) := by
  decide

lemma div_mod_lt_iff {B m n : Nat} (hB : 0 < B) :
    m < n ↔ (m / B < n / B ∨ (m / B = n / B ∧ m % B < n % B)) := by
  have h1 := Nat.div_add_mod m B
  have h2 := Nat.div_add_mod n B
  have h3 : m % B < B := Nat.mod_lt _ hB
  have h4 : n % B < B := Nat.mod_lt _ hB
  constructor
  · intro h
    by_cases hq : m / B = n / B
    · rw [hq] at h1
      exact Or.inr ⟨hq, by omega⟩
    · have hle : m / B ≤ n / B := Nat.div_le_div_right (Nat.le_of_lt h)
      exact Or.inl (by omega)
  · intro h
    rcases h with h | ⟨hq, hr⟩
    · have hmul : B * (m / B + 1) ≤ B * (n / B) := Nat.mul_le_mul_left B h
      have hexp : B * (m / B + 1) = B * (m / B) + B := by ring
      omega
    · rw [hq] at h1
      omega

lemma digitsBE_length : ∀ (k n : Nat), (digitsBE k n).length = k := by
  intro k
  induction k with
  | zero => intro n; rfl
  | succ k ih => intro n; simp [digitsBE, ih]

lemma digitsBE_lex : ∀ (k m n : Nat), m < 32 ^ k → n < 32 ^ k →
    (List.Lex (· < ·) ((digitsBE k m).map b32Char) ((digitsBE k n).map b32Char)
      ↔ m < n) := by
  intro k
  induction k with
  | zero =>
    intro m n hm hn
    simp only [digitsBE, List.map_nil]
    simp only [pow_zero, Nat.lt_one_iff] at hm hn
    subst hm; subst hn
    simp
  | succ k ih =>
    intro m n hm hn
    have hpow : (0 : Nat) < 32 ^ k := Nat.pos_pow_of_pos k (by omega)
    have hd1 : m / 32 ^ k < 32 := Nat.div_lt_of_lt_mul (by rw [← pow_succ]; exact hm)
    have hd2 : n / 32 ^ k < 32 := Nat.div_lt_of_lt_mul (by rw [← pow_succ]; exact hn)
    simp only [digitsBE, List.map_cons]
    rw [lex_cons_char, b32Char_lt_iff _ hd1 _ hd2, b32Char_eq_iff _ hd1 _ hd2,
      ih (m % 32 ^ k) (n % 32 ^ k) (Nat.mod_lt _ hpow) (Nat.mod_lt _ hpow)]
    exact (div_mod_lt_iff hpow).symm

/-! ## Claim theorems -/

/-- C1: `ManagedVec::push` does NOT report a capacity error when the slot
count would exceed the `u8` index range: at the reachable full state with
255 live elements (`len() = 255`), the next push hits the `u8` overflow of
`self.some_len += 1` (debug: panic; release: silent counter wraparound,
then the `index.try_into().unwrap()` panic on the following push) — the
embedding's panic marker `none`, not an error value surfaced to the
caller. -/
theorem push_capacity_overflow_panics :
    ManagedVec.Reach (ManagedVec.fullState 255) ∧
    (ManagedVec.fullState 255).len = 255 ∧
    ManagedVec.push (ManagedVec.fullState 255) tsD = none :=
  ⟨reach_fullState 255 (by omega), rfl, rfl⟩

/-- C10: whenever `push` returns (does not panic), the Rust return value is
`Some(index)` — the `None` case of its `Option<ManagedVecUSize>` return
type is unreachable, so a caller cannot detect capacity exhaustion through
the return value. -/
theorem push_returns_present_index {T : Type} [ManagedElement T]
    {v : ManagedVec T} {x : T} {v' : ManagedVec T} {r : Option Nat}
    (h : ManagedVec.push v x = some (v', r)) : ∃ i, r = some i := by
  rw [ManagedVec.push] at h
  split at h
  · split at h
    case h_1 i hff =>
      split at h
      · simp only [Option.some.injEq, Prod.mk.injEq] at h
        exact ⟨i, h.2.symm⟩
      · exact absurd h (by simp)
    case h_2 hff =>
      split at h
      · simp only [Option.some.injEq, Prod.mk.injEq] at h
        exact ⟨v.data.length, h.2.symm⟩
      · exact absurd h (by simp)
  · exact absurd h (by simp)

/-- Witness for C10 at a concrete input. -/
theorem push_returns_present_index_witness : ∃ i, (some 0 : Option Nat) = some i :=
  push_returns_present_index
    (show ManagedVec.push (ManagedVec.new TS) tsA = some (vA, some 0) by decide)

/-- C2: every state reachable by push/remove from a new registry satisfies:
`len()` equals the number of occupied slots; the backing sequence has no
empty slot at its tail (so its last slot — the highest index, length minus
one — is occupied whenever it is nonempty, i.e. the length is one plus the
highest occupied index, or zero); and every stored element self-reports
exactly its slot index. -/
theorem reach_state_invariants {T : Type} [ManagedElement T] [LawfulManagedElement T]
    {v : ManagedVec T} (h : ManagedVec.Reach v) :
    v.len = countSome v.data ∧
    noTrailingNone v.data = true ∧
    (v.data ≠ [] → ∃ x, v.data.getLast? = some (some x)) ∧
    (∀ (j : Nat) (x : T), v.data[j]? = some (some x) → idx x = some j) := by
  obtain ⟨hc, _, ht, hi⟩ := ManagedVec.inv_of_reach h
  refine ⟨hc, ht, ?_, ?_⟩
  · intro hne
    have hsome : v.data.getLast?.isSome := List.getLast?_isSome.mpr hne
    obtain ⟨c, hc2⟩ := Option.isSome_iff_exists.mp hsome
    rw [noTrailingNone, hc2] at ht
    match c with
    | none => simp at ht
    | some x => exact ⟨x, hc2⟩
  · intro j x hj
    have := (idxOk_iff v.data 0).mp hi j x hj
    simpa using this

/-- Witness for C2 at the reachable state `push A; push B; push C;
remove 1`. -/
theorem reach_state_invariants_witness :
    vAC.len = countSome vAC.data ∧
    noTrailingNone vAC.data = true ∧
    (vAC.data ≠ [] → ∃ x, vAC.data.getLast? = some (some x)) ∧
    (∀ (j : Nat) (x : TS), vAC.data[j]? = some (some x) → idx x = some j) :=
  reach_state_invariants reach_vAC

/-- C4: `push` stores the element in the lowest-indexed free slot when one
exists and appends a new slot only when no slot is free; it writes the
chosen index into the element's index field and returns that index. -/
theorem push_reuses_lowest_free_slot {T : Type} [ManagedElement T]
    {v : ManagedVec T} {x : T} {v' : ManagedVec T} {r : Option Nat}
    (h : ManagedVec.push v x = some (v', r)) :
    ∃ i, r = some i ∧ v'.data[i]? = some (some (set_idx x (some i))) ∧
      ((v.data[i]? = some none ∧ (∀ j < i, ∃ y, v.data[j]? = some (some y)) ∧
          v'.data = v.data.set i (some (set_idx x (some i)))) ∨
        (i = v.data.length ∧
          (∀ (j : Nat) (c : Option T), v.data[j]? = some c → ∃ y, c = some y) ∧
          v'.data = v.data ++ [some (set_idx x (some i))])) := by
  rw [ManagedVec.push] at h
  split at h
  · split at h
    case h_1 i hff =>
      split at h
      · simp only [Option.some.injEq, Prod.mk.injEq] at h
        obtain ⟨hv', hr⟩ := h
        subst hv'
        subst hr
        obtain ⟨hcell, hmin⟩ := firstFree_some v.data i hff
        have hlen : i < v.data.length := (List.getElem?_eq_some.mp hcell).1
        refine ⟨i, rfl, ?_, Or.inl ⟨hcell, hmin, rfl⟩⟩
        show (v.data.set i (some (set_idx x (some i))))[i]? = _
        rw [List.getElem?_set_self hlen]
      · exact absurd h (by simp)
    case h_2 hff =>
      split at h
      · simp only [Option.some.injEq, Prod.mk.injEq] at h
        obtain ⟨hv', hr⟩ := h
        subst hv'
        subst hr
        refine ⟨v.data.length, rfl, ?_,
          Or.inr ⟨rfl, firstFree_none v.data hff, rfl⟩⟩
        show (v.data ++ [some (set_idx x (some v.data.length))])[v.data.length]? = _
        rw [List.getElem?_concat_length]
      · exact absurd h (by simp)
  · exact absurd h (by simp)

/-- Witness for C4: the §8 scenario — push A, B, C (indices 0,1,2), remove
1, then push D: D receives index 1, `len() = 3`, and iteration yields
`[(0,A), (1,D), (2,C)]`. -/
theorem push_reuses_lowest_free_slot_witness :
    ManagedVec.push vAC tsD = some (vADC, some 1) ∧
    vADC.len = 3 ∧
    ManagedVec.iterList vADC =
      [(0, ⟨some 0, 1⟩), (1, ⟨some 1, 4⟩), (2, ⟨some 2, 3⟩)] ∧
    (∃ i, (some 1 : Option Nat) = some i ∧
      vADC.data[i]? = some (some (set_idx tsD (some i))) ∧
      ((vAC.data[i]? = some none ∧ (∀ j < i, ∃ y, vAC.data[j]? = some (some y)) ∧
          vADC.data = vAC.data.set i (some (set_idx tsD (some i)))) ∨
        (i = vAC.data.length ∧
          (∀ (j : Nat) (c : Option TS), vAC.data[j]? = some c → ∃ y, c = some y) ∧
          vADC.data = vAC.data ++ [some (set_idx tsD (some i))]))) :=
  ⟨by decide, by decide, by decide,
   push_reuses_lowest_free_slot
     (show ManagedVec.push vAC tsD = some (vADC, some 1) by decide)⟩

/-- C5: removing an occupied slot of a reachable state succeeds (no panic),
returns the element with its index field cleared, leaves `get`/`get_mut`
absent at that index, leaves no trailing empty slot, and decreases `len()`
by exactly one. -/
theorem remove_occupied_postconditions {T : Type} [ManagedElement T]
    [LawfulManagedElement T] {v : ManagedVec T} {i : Nat} {x : T}
    (hr : ManagedVec.Reach v) (hx : v.data[i]? = some (some x)) :
    ∃ v', ManagedVec.remove v i = some (v', some (set_idx x none)) ∧
      idx (set_idx x none) = none ∧
      v'.get i = none ∧ v'.get_mut i = none ∧
      noTrailingNone v'.data = true ∧ v'.len + 1 = v.len := by
  obtain ⟨hc, _, _, _⟩ := ManagedVec.inv_of_reach hr
  have hpos : 1 ≤ v.some_len := by rw [hc]; exact countSome_pos hx
  have hlen : i < v.data.length := (List.getElem?_eq_some.mp hx).1
  have hget : (trimTail (v.data.set i none))[i]?.bind id = (none : Option T) := by
    cases h2 : (trimTail (v.data.set i none))[i]? with
    | none => rfl
    | some c =>
      have h3 := trimTail_getElem? (v.data.set i none) i c h2
      rw [List.getElem?_set_self hlen] at h3
      have hcn : c = none := (Option.some.inj h3).symm
      subst hcn
      rfl
  refine ⟨⟨trimTail (v.data.set i none), v.some_len - 1⟩, ?_,
    LawfulManagedElement.idx_set_idx x none, hget, hget, trimTail_noTrailing _, ?_⟩
  · simp only [ManagedVec.remove, hx]
    rw [if_neg (by omega)]
  · show v.some_len - 1 + 1 = v.some_len
    omega

/-- Witness for C5: removing occupied slot 1 of the reachable state
`push A; push B; push C`. -/
theorem remove_occupied_postconditions_witness :
    ∃ v', ManagedVec.remove vABC 1 = some (v', some (set_idx (⟨some 1, 2⟩ : TS) none)) ∧
      idx (set_idx (⟨some 1, 2⟩ : TS) none) = none ∧
      v'.get 1 = none ∧ v'.get_mut 1 = none ∧
      noTrailingNone v'.data = true ∧ v'.len + 1 = vABC.len :=
  remove_occupied_postconditions reach_vABC
    (show vABC.data[1]? = some (some ⟨some 1, 2⟩) by decide)

/-- C6: removing an out-of-range index or an already-empty slot of a
reachable state is a no-op: it returns the absent value, leaves the state
(backing sequence and `len()`) entirely unchanged, and does not panic. -/
theorem remove_absent_is_noop {T : Type} [ManagedElement T] [LawfulManagedElement T]
    {v : ManagedVec T} {i : Nat} (hr : ManagedVec.Reach v)
    (h : v.data[i]? = none ∨ v.data[i]? = some none) :
    ManagedVec.remove v i = some (v, none) := by
  rcases h with h | h
  · simp only [ManagedVec.remove, h]
  · obtain ⟨_, _, ht, _⟩ := ManagedVec.inv_of_reach hr
    simp only [ManagedVec.remove, h]
    rw [set_getElem?_same h, trimTail_eq_self ht]

/-- Witness for C6: removing the empty slot 1 and the out-of-range index 7
of the reachable state `push A; push B; push C; remove 1`. -/
theorem remove_absent_is_noop_witness :
    ManagedVec.remove vAC 1 = some (vAC, none) ∧
    ManagedVec.remove vAC 7 = some (vAC, none) :=
  ⟨remove_absent_is_noop reach_vAC (Or.inr (by decide)),
   remove_absent_is_noop reach_vAC (Or.inl (by decide))⟩

/-- C7: `get` and `get_mut` are total functions of the state (the embedding
returns no modified state — they never write): absent for an out-of-range
index or an empty slot, and the stored element for an occupied slot. -/
theorem get_get_mut_total {T : Type} [ManagedElement T] (v : ManagedVec T) (i : Nat) :
    (v.data.length ≤ i → v.get i = none ∧ v.get_mut i = none) ∧
    (v.data[i]? = some none → v.get i = none ∧ v.get_mut i = none) ∧
    (∀ x, v.data[i]? = some (some x) → v.get i = some x ∧ v.get_mut i = some x) := by
  refine ⟨?_, ?_, ?_⟩
  · intro hle
    have h : v.data[i]? = none := List.getElem?_eq_none hle
    constructor <;> (show v.data[i]?.bind id = none; rw [h]; rfl)
  · intro h
    constructor <;> (show v.data[i]?.bind id = none; rw [h]; rfl)
  · intro x h
    constructor <;> (show v.data[i]?.bind id = some x; rw [h]; rfl)

/-- Witness for C7 at the state `push A; push B; push C; remove 1`:
out-of-range index 5, empty slot 1, occupied slot 0. -/
theorem get_get_mut_total_witness :
    (vAC.get 5 = none ∧ vAC.get_mut 5 = none) ∧
    (vAC.get 1 = none ∧ vAC.get_mut 1 = none) ∧
    (vAC.get 0 = some ⟨some 0, 1⟩ ∧ vAC.get_mut 0 = some ⟨some 0, 1⟩) :=
  ⟨(get_get_mut_total vAC 5).1 (by decide),
   (get_get_mut_total vAC 1).2.1 (by decide),
   (get_get_mut_total vAC 0).2.2 ⟨some 0, 1⟩ (by decide)⟩

/-- C3: `increment` with a strictly greater new sequence id keeps the
instance id and stores the new sequence id; with a non-greater one (clock
regression) it mints the fresh instance id and then stores the new
sequence id; and two successive increments with strictly increasing inputs
keep the instance id while the sequence id strictly increases. -/
theorem increment_epoch_behavior (s : UuidST) (nd fm : Nat) :
    (s.data_uuid < nd → UuidST.increment s nd fm = ⟨s.method_uuid, nd⟩) ∧
    (nd ≤ s.data_uuid → UuidST.increment s nd fm = ⟨fm, nd⟩) ∧
    (∀ nd2 fm2, s.data_uuid < nd → nd < nd2 →
      (UuidST.increment (UuidST.increment s nd fm) nd2 fm2).method_uuid
        = s.method_uuid ∧
      (UuidST.increment s nd fm).data_uuid
        < (UuidST.increment (UuidST.increment s nd fm) nd2 fm2).data_uuid) := by
  have e1 : s.data_uuid < nd → UuidST.increment s nd fm = ⟨s.method_uuid, nd⟩ := by
    intro h
    simp only [UuidST.increment]
    rw [if_neg (by omega)]
  refine ⟨e1, ?_, ?_⟩
  · intro h
    simp only [UuidST.increment]
    rw [if_pos h]
  · intro nd2 fm2 h1 h2
    rw [e1 h1]
    have e2 : UuidST.increment (⟨s.method_uuid, nd⟩ : UuidST) nd2 fm2
        = ⟨s.method_uuid, nd2⟩ := by
      simp only [UuidST.increment]
      rw [if_neg (show ¬ nd2 ≤ (⟨s.method_uuid, nd⟩ : UuidST).data_uuid by
        show ¬ nd2 ≤ nd; omega)]
    rw [e2]
    exact ⟨rfl, h2⟩

/-- Witness for C3 at concrete stamps: a monotone step, a regression step,
and a two-step monotone chain. -/
theorem increment_epoch_behavior_witness :
    (UuidST.increment ⟨5, 10⟩ 11 7 = ⟨5, 11⟩) ∧
    (UuidST.increment ⟨5, 10⟩ 3 7 = ⟨7, 3⟩) ∧
    ((UuidST.increment (UuidST.increment ⟨5, 10⟩ 11 7) 12 9).method_uuid = 5 ∧
      (UuidST.increment ⟨5, 10⟩ 11 7).data_uuid
        < (UuidST.increment (UuidST.increment ⟨5, 10⟩ 11 7) 12 9).data_uuid) :=
  ⟨(increment_epoch_behavior ⟨5, 10⟩ 11 7).1 (by decide),
   (increment_epoch_behavior ⟨5, 10⟩ 3 7).2.1 (by decide),
   (increment_epoch_behavior ⟨5, 10⟩ 11 7).2.2 12 9 (by decide) (by decide)⟩

/-- C8: the fixed-length (26-character) Base32Hex no-pad encoding of a
128-bit identifier is order-preserving: the encoded character sequences
compare lexicographically exactly as the underlying values compare
numerically (which, for the big-endian 16-byte representation, is also
byte-wise order). -/
theorem short_uuid_string_order (u v : Nat) (hu : u < 2 ^ 128) (hv : v < 2 ^ 128) :
    (short_uuid_string u).length = 26 ∧
    (List.Lex (· < ·) (short_uuid_string u) (short_uuid_string v) ↔ u < v) := by
  have h130 : (32 : Nat) ^ 26 = 2 ^ 130 := by norm_num
  have h4 : (2 : Nat) ^ 130 = 4 * 2 ^ 128 := by norm_num
  have hu4 : u * 4 < 32 ^ 26 := by rw [h130, h4]; omega
  have hv4 : v * 4 < 32 ^ 26 := by rw [h130, h4]; omega
  constructor
  · show ((digitsBE 26 (u * 4)).map b32Char).length = 26
    rw [List.length_map, digitsBE_length]
  · simp only [short_uuid_string]
    rw [digitsBE_lex 26 (u * 4) (v * 4) hu4 hv4]
    omega

/-- Witness for C8 at the concrete identifiers 1 and 2. -/
theorem short_uuid_string_order_witness :
    (short_uuid_string 1).length = 26 ∧
    (List.Lex (· < ·) (short_uuid_string 1) (short_uuid_string 2) ↔ 1 < 2) :=
  short_uuid_string_order 1 2 (by norm_num) (by norm_num)

/-- C9: the `getStatus` handler (spec-modelled, the implementation is not
among the sources): absent prior stamp or mismatched instance id yields
the full payload plus the current stamp; matching instance id with equal
sequence id yields the abbreviated payload with the unchanged stamp;
matching instance id with a different sequence id yields the full payload
plus the current stamp. -/
theorem get_status_conditional_read {P : Type} (cur : UuidST) (full : P) :
    (∀ cd, getStatusHandler cur full none cd = ⟨cur, some full⟩) ∧
    (∀ cm, getStatusHandler cur full cm none = ⟨cur, some full⟩) ∧
    (∀ m cd, m ≠ cur.method_uuid →
      getStatusHandler cur full (some m) cd = ⟨cur, some full⟩) ∧
    getStatusHandler cur full (some cur.method_uuid) (some cur.data_uuid)
      = ⟨cur, none⟩ ∧
    (∀ d, d ≠ cur.data_uuid →
      getStatusHandler cur full (some cur.method_uuid) (some d)
        = ⟨cur, some full⟩) := by
  refine ⟨?_, ?_, ?_, ?_, ?_⟩
  · intro cd; rfl
  · intro cm
    cases cm with
    | none => rfl
    | some m => rfl
  · intro m cd h
    cases cd with
    | none => rfl
    | some d =>
      simp only [getStatusHandler]
      rw [if_neg h]
  · simp only [getStatusHandler]
    simp
  · intro d h
    simp only [getStatusHandler]
    simp [h]

/-- Witness for C9: the §8 conditional-read scenario against the stamp
(1, 2): no prior stamp, mismatched instance id, matching stamp, and stale
sequence id. -/
theorem get_status_conditional_read_witness :
    getStatusHandler (⟨1, 2⟩ : UuidST) (42 : Nat) none none = ⟨⟨1, 2⟩, some 42⟩ ∧
    getStatusHandler (⟨1, 2⟩ : UuidST) (42 : Nat) (some 9) (some 2)
      = ⟨⟨1, 2⟩, some 42⟩ ∧
    getStatusHandler (⟨1, 2⟩ : UuidST) (42 : Nat) (some 1) (some 2) = ⟨⟨1, 2⟩, none⟩ ∧
    getStatusHandler (⟨1, 2⟩ : UuidST) (42 : Nat) (some 1) (some 0)
      = ⟨⟨1, 2⟩, some 42⟩ :=
  ⟨(get_status_conditional_read ⟨1, 2⟩ 42).1 none,
   (get_status_conditional_read ⟨1, 2⟩ 42).2.2.1 9 (some 2) (by decide),
   (get_status_conditional_read ⟨1, 2⟩ 42).2.2.2.1,
   (get_status_conditional_read ⟨1, 2⟩ 42).2.2.2.2 0 (by decide)⟩

end Suibase
